import Mathlib

/-!
Verification of the wasabi-os first-fit heap allocator.

A shallow embedding of `src/allocator.rs`.  Machine integers (`usize`) are
modelled as `Nat` with explicit `% 2 ^ 64` where wrap-around matters; the
64-bit bitwise NOT of `m < 2 ^ 64` is modelled arithmetically as
`2 ^ 64 - 1 - m`.  Headers live inside the managed memory; a header is
identified by its base address.  The singly-linked chain rooted at the
allocator's `first_header` is modelled as a `List Header` in link order, so
the `next_header` pointer of each header is the following list entry (and
`None` for the last entry).  Fallible operations return `Option`.
-/

namespace WasabiAlloc

/-- The value of `usize::BITS` on the target (x86-64). -/
def USIZE_BITS : Nat := 64

/-- The modulus of 64-bit machine arithmetic, `usize::MAX + 1`. -/
def U64MOD : Nat := 2 ^ 64

/-- Number of binary digits of `n`, computed by structural recursion on a
fuel argument; `bitLen f n` is the bit length of `n` whenever `n < 2 ^ f`.
This models the combination `BITS - leading_zeros` used by the source. -/
def bitLen : Nat → Nat → Nat
  | 0, _ => 0
  | f + 1, n => if n = 0 then 0 else bitLen f (n / 2) + 1

/-- Models `usize::leading_zeros` of a 64-bit value. -/
def leading_zeros (x : Nat) : Nat := USIZE_BITS - bitLen USIZE_BITS x

/-- Models `v.wrapping_sub(1)` on `usize`. -/
def wrapping_sub_one (v : Nat) : Nat := (v + (U64MOD - 1)) % U64MOD

/-- Models `x.checked_shl(s)` on `usize`: `none` iff the shift amount is at least
the bit width. -/
def checked_shl (x s : Nat) : Option Nat :=
  if s < USIZE_BITS then some (x <<< s) else none

/-- Models `round_up_to_nearest_pow2` from `src/allocator.rs`:
`1usize.checked_shl(usize::BITS - v.wrapping_sub(1).leading_zeros()).ok_or("Out of range")`. -/
def round_up_to_nearest_pow2 (v : Nat) : Option Nat :=
  checked_shl 1 (USIZE_BITS - leading_zeros (wrapping_sub_one v))

/-- The header size `size_of::<Header>()`; the source statically asserts it is `32`. -/
def HEADER_SIZE : Nat := 32

/-- A chunk header (`struct Header`).  `addr` is the address the header is
written at (`self as *const Header as usize`); `next_header` is represented
by list order in the chain, and `_reserved` carries no information. -/
structure Header where
  addr : Nat
  size : Nat
  is_allocated : Bool
deriving DecidableEq, Repr

/-- Models `Header::end_addr`: `self as *const Header as usize + self.size`. -/
def Header.end_addr (h : Header) : Nat := h.addr + h.size

/-- Models `Header::can_provide`: `self.size >= size + HEADER_SIZE * 2 + align`. -/
def Header.can_provide (h : Header) (size align : Nat) : Bool :=
  decide (size + HEADER_SIZE * 2 + align ≤ h.size)

/-- The 64-bit bitwise NOT: for `m < 2 ^ 64`, `!m = 2 ^ 64 - 1 - m`. -/
def not64 (m : Nat) : Nat := U64MOD - 1 - m

/-- Models `Header::provide`.  On success it returns the replacement segment for
the chunk (the shrunk `self`, the allocated header, and the padding header
when one is created — in link order) together with the payload address.
The source's in-place pointer splicing (`header_for_allocated.next_header =
self.next_header.take()` etc.) is exactly the list concatenation of this
segment with the rest of the chain. -/
def Header.provide (h : Header) (size align : Nat) : Option (List Header × Nat) := do
  let s0 ← round_up_to_nearest_pow2 size
  let size := max s0 HEADER_SIZE
  let align := max align HEADER_SIZE
  if h.is_allocated || !(h.can_provide size align) then
    none
  else
    let allocated_addr := Nat.land (h.end_addr - size) (not64 (align - 1))
    let header_for_allocated : Header :=
      ⟨allocated_addr - HEADER_SIZE, size + HEADER_SIZE, true⟩
    if header_for_allocated.end_addr ≠ h.end_addr then
      let header_for_padding : Header :=
        ⟨header_for_allocated.end_addr, h.end_addr - header_for_allocated.end_addr, false⟩
      let size_used := header_for_allocated.size + header_for_padding.size
      some ([⟨h.addr, h.size - size_used, h.is_allocated⟩,
             header_for_allocated, header_for_padding], allocated_addr)
    else
      some ([⟨h.addr, h.size - header_for_allocated.size, h.is_allocated⟩,
             header_for_allocated], allocated_addr)

/-- Models `alloc::alloc::Layout`: a size and a (power-of-two) alignment. -/
structure Layout where
  size : Nat
  align : Nat
deriving DecidableEq, Repr

/-- One iteration of the `alloc_with_options` loop, over the already
computed outcomes: if this chunk provided, splice its segment in front of
the untouched suffix; otherwise keep the chunk and use the walk's outcome
on the rest of the chain. -/
def allocChainStep (provided : Option (List Header × Nat)) (h : Header)
    (rest : List Header) (recursed : Option (List Header × Nat)) :
    Option (List Header × Nat) :=
  match provided with
  | some (seg, p) => some (seg ++ rest, p)
  | none =>
    match recursed with
    | some (rest', p) => some (h :: rest', p)
    | none => none

/-- The walk of `FirstFitAllocator::alloc_with_options`: try `provide` on
each chunk in chain order; on the first success splice the returned segment
in place of that chunk and return the payload address; `none` when the end
of the chain is reached. -/
def allocChain : List Header → Nat → Nat → Option (List Header × Nat)
  | [], _, _ => none
  | h :: rest, size, align =>
    allocChainStep (h.provide size align) h rest (allocChain rest size align)

/-- The final `break` of the `alloc_with_options` loop: the successful
outcome, or the null pointer (address `0`) with the chain unchanged. -/
def resultOrNull (r : Option (List Header × Nat)) (chain : List Header) :
    List Header × Nat :=
  match r with
  | some r => r
  | none => (chain, 0)

/-- Models `FirstFitAllocator::alloc_with_options`: the chain walk, with the null
pointer (address `0`) returned — and the chain left unchanged — when no
chunk can provide. -/
def alloc_with_options (chain : List Header) (layout : Layout) : List Header × Nat :=
  resultOrNull (allocChain chain layout.size layout.align) chain

/-- Models `GlobalAlloc::dealloc` for `FirstFitAllocator`: reinterpret the bytes at
`ptr - HEADER_SIZE` as a header and clear `is_allocated`; the layout
argument is ignored (`_layout`).  In the chain model this clears the flag of
the header whose address is `ptr - HEADER_SIZE`. -/
def dealloc (chain : List Header) (ptr : Nat) (layout : Layout) : List Header :=
  let _layout := layout
  chain.map fun h =>
    if h.addr = ptr - HEADER_SIZE then { h with is_allocated := false } else h

/-- Modelled from the spec: `EfiMemoryType` (from the repository's
`uefi.rs`, which is not under `src/`).  The allocator only distinguishes
`CONVENTIONAL_MEMORY` from every other type. -/
inductive EfiMemoryType where
  | CONVENTIONAL_MEMORY
  | OTHER
deriving DecidableEq, Repr

/-- Modelled from the spec: `EfiMemoryDescriptor` (from the repository's
`uefi.rs`, not under `src/`): a tuple
`(physical_start, number_of_pages, memory_type)`. -/
structure EfiMemoryDescriptor where
  memory_type : EfiMemoryType
  physical_start : Nat
  number_of_pages : Nat
deriving DecidableEq, Repr

/-- Models `FirstFitAllocator::add_free_from_descriptor`: derive `(start, bytes)`,
dodge address `0` by one page (`saturating_sub` is `Nat` subtraction), skip
descriptors leaving at most one page, otherwise prepend a free header. -/
def add_free_from_descriptor (chain : List Header) (desc : EfiMemoryDescriptor) :
    List Header :=
  let start_addr := desc.physical_start
  let size := desc.number_of_pages * 4096
  let start_addr := if desc.physical_start = 0 then start_addr + 4096 else start_addr
  let size := if desc.physical_start = 0 then size - 4096 else size
  if size ≤ 4096 then chain
  else ⟨start_addr, size, false⟩ :: chain

/-- Models `FirstFitAllocator::init_with_mmap`: fold over the memory map (modelled
from the spec as an ordered list of descriptors, since `MemoryMapHolder`
lives in `uefi.rs`), ingesting exactly the conventional-memory
descriptors in order. -/
def init_with_mmap (chain : List Header) (memory_map : List EfiMemoryDescriptor) :
    List Header :=
  memory_map.foldl
    (fun ch e =>
      if e.memory_type ≠ EfiMemoryType.CONVENTIONAL_MEMORY then ch
      else add_free_from_descriptor ch e)
    chain

/-! ## Bit-length and `round_up_to_nearest_pow2` -/

theorem bitLen_le_iff {f n : Nat} (hn : n < 2 ^ f) (m : Nat) :
    bitLen f n ≤ m ↔ n < 2 ^ m := by
  induction f generalizing n m with
  | zero =>
    interval_cases n
    simp [bitLen, Nat.pos_pow_of_pos]
  | succ f ih =>
    by_cases h0 : n = 0
    · subst h0
      simp [bitLen, Nat.pos_pow_of_pos]
    · have hdiv : n / 2 < 2 ^ f := by
        rw [Nat.div_lt_iff_lt_mul (by norm_num)]
        calc n < 2 ^ (f + 1) := hn
          _ = 2 ^ f * 2 := by ring
      cases m with
      | zero =>
        simp only [bitLen, h0, if_false, pow_zero]
        omega
      | succ m =>
        simp only [bitLen, h0, if_false, Nat.succ_le_succ_iff, ih hdiv]
        rw [Nat.div_lt_iff_lt_mul (by norm_num), pow_succ]

theorem lt_bitLen_iff {f n : Nat} (hn : n < 2 ^ f) (m : Nat) :
    m < bitLen f n ↔ 2 ^ m ≤ n := by
  rw [← Nat.not_le, bitLen_le_iff hn, Nat.not_lt]

theorem bitLen_le_fuel {f n : Nat} (hn : n < 2 ^ f) : bitLen f n ≤ f :=
  (bitLen_le_iff hn f).mpr hn

theorem wrapping_sub_one_of_pos {v : Nat} (h1 : 0 < v) (h2 : v < 2 ^ 64) :
    wrapping_sub_one v = v - 1 := by
  unfold wrapping_sub_one U64MOD
  omega

/-- The shift amount computed by the source is exactly the bit length of
`v.wrapping_sub(1)`. -/
theorem rup_shift_eq (v : Nat) (hv : wrapping_sub_one v < 2 ^ 64) :
    USIZE_BITS - leading_zeros (wrapping_sub_one v) = bitLen 64 (wrapping_sub_one v) := by
  have := bitLen_le_fuel (f := 64) hv
  unfold leading_zeros USIZE_BITS at *
  omega

theorem wrapping_sub_one_lt (v : Nat) : wrapping_sub_one v < 2 ^ 64 := by
  unfold wrapping_sub_one U64MOD
  exact Nat.mod_lt _ (by norm_num)

theorem rup_eq_none_iff {v : Nat} (hv : v < 2 ^ 64) :
    round_up_to_nearest_pow2 v = none ↔ v = 0 ∨ 2 ^ 63 < v := by
  unfold round_up_to_nearest_pow2 checked_shl
  rw [rup_shift_eq v (wrapping_sub_one_lt v)]
  by_cases h0 : v = 0
  · subst h0
    have hw : wrapping_sub_one 0 = 2 ^ 64 - 1 := by unfold wrapping_sub_one U64MOD; rfl
    rw [hw]
    have h64 : 64 ≤ bitLen 64 (2 ^ 64 - 1) := by
      have := (lt_bitLen_iff (f := 64) (n := 2 ^ 64 - 1) (by norm_num) 63).mpr (by norm_num)
      omega
    simp only [USIZE_BITS]
    rw [if_neg (by omega)]
    simp
  · rw [wrapping_sub_one_of_pos (by omega) hv]
    have hlt : v - 1 < 2 ^ 64 := by omega
    constructor
    · intro h
      by_contra hc
      push_neg at hc
      have hb : bitLen 64 (v - 1) ≤ 63 := (bitLen_le_iff hlt 63).mpr (by omega)
      simp only [USIZE_BITS, ite_eq_right_iff] at h
      exact absurd (h (by omega)) (by simp)
    · intro h
      have h63 : 2 ^ 63 < v := by omega
      have : 63 < bitLen 64 (v - 1) := (lt_bitLen_iff hlt 63).mpr (by omega)
      simp only [USIZE_BITS, ite_eq_right_iff]
      omega

theorem rup_eq_some {v r : Nat} (h : round_up_to_nearest_pow2 v = some r) :
    0 < v ∧ r = 2 ^ bitLen 64 (wrapping_sub_one v) := by
  unfold round_up_to_nearest_pow2 checked_shl at h
  rw [rup_shift_eq v (wrapping_sub_one_lt v)] at h
  split at h
  · rename_i hcond
    refine ⟨?_, ?_⟩
    · by_contra h0
      have hv0 : v = 0 := by omega
      subst hv0
      have hw : wrapping_sub_one 0 = 2 ^ 64 - 1 := by unfold wrapping_sub_one U64MOD; rfl
      rw [hw] at hcond
      have h64 : 64 ≤ bitLen 64 (2 ^ 64 - 1) := by
        have := (lt_bitLen_iff (f := 64) (n := 2 ^ 64 - 1) (by norm_num) 63).mpr (by norm_num)
        omega
      simp only [USIZE_BITS] at hcond
      omega
    · have := h
      simp only [Option.some.injEq] at this
      rw [← this, Nat.shiftLeft_eq, one_mul]
  · exact absurd h (by simp)

/-- On success, the result is the least power of two that is at least `v`. -/
theorem rup_spec {v r : Nat} (hv : v < 2 ^ 64) (h : round_up_to_nearest_pow2 v = some r) :
    (∃ k, r = 2 ^ k) ∧ v ≤ r ∧ r / 2 < v := by
  obtain ⟨hpos, hr⟩ := rup_eq_some h
  rw [wrapping_sub_one_of_pos hpos hv] at hr
  have hlt : v - 1 < 2 ^ 64 := by omega
  set s := bitLen 64 (v - 1) with hs
  refine ⟨⟨s, hr⟩, ?_, ?_⟩
  · have : v - 1 < 2 ^ s := by
      have := (bitLen_le_iff hlt s).mp le_rfl
      omega
    omega
  · cases Nat.eq_zero_or_pos s with
    | inl h0 =>
      rw [hr, h0]
      simpa using hpos
    | inr hspos =>
      have hle : 2 ^ (s - 1) ≤ v - 1 := (lt_bitLen_iff hlt (s - 1)).mp (by omega)
      have hs1 : s - 1 + 1 = s := by omega
      have hdiv : r / 2 = 2 ^ (s - 1) := by
        rw [hr]
        have hpow : (2 : Nat) ^ s = 2 ^ (s - 1) * 2 := by rw [← pow_succ, hs1]
        rw [hpow, Nat.mul_div_cancel _ (by norm_num)]
      omega

theorem rup_pos {v r : Nat} (h : round_up_to_nearest_pow2 v = some r) : 0 < r := by
  obtain ⟨-, hr⟩ := rup_eq_some h
  rw [hr]
  exact Nat.pos_pow_of_pos _ (by norm_num)

/-! ## The alignment mask -/

/-- Rounding `x` down to a multiple of `a`. -/
def alignDown (x a : Nat) : Nat := x - x % a

theorem land_mask_eq (x k : Nat) (hk : k ≤ 64) (hx : x < 2 ^ 64) :
    Nat.land x (2 ^ 64 - 2 ^ k) = x / 2 ^ k * 2 ^ k := by
  have hmask : (2 : Nat) ^ 64 - 2 ^ k = (2 ^ (64 - k) - 1) <<< k := by
    rw [Nat.shiftLeft_eq, Nat.sub_mul, one_mul, ← pow_add]
    congr 2
    omega
  have hrhs : x / 2 ^ k * 2 ^ k = (x >>> k) <<< k := by
    rw [Nat.shiftRight_eq_div_pow, Nat.shiftLeft_eq]
  apply Nat.eq_of_testBit_eq
  intro i
  rw [show Nat.land x (2 ^ 64 - 2 ^ k) = x &&& (2 ^ 64 - 2 ^ k) from rfl,
    Nat.testBit_land, hmask, hrhs, Nat.testBit_shiftLeft, Nat.testBit_shiftLeft,
    Nat.testBit_shiftRight, Nat.testBit_two_pow_sub_one]
  by_cases hki : k ≤ i
  · rw [show k + (i - k) = i by omega]
    by_cases hi : i < 64
    · simp [hki, show i - k < 64 - k by omega]
    · have hfalse : x.testBit i = false :=
        Nat.testBit_lt_two_pow
          (lt_of_lt_of_le hx (Nat.pow_le_pow_right (by norm_num) (by omega)))
      simp [hfalse, show ¬(i - k < 64 - k) by omega]
  · simp [hki]

theorem land_not64_pow2 (x k : Nat) (hk : k ≤ 64) (hx : x < 2 ^ 64) :
    Nat.land x (not64 (2 ^ k - 1)) = alignDown x (2 ^ k) := by
  have hmask : not64 (2 ^ k - 1) = 2 ^ 64 - 2 ^ k := by
    have h1 : (1 : Nat) ≤ 2 ^ k := Nat.one_le_two_pow
    have h2 : (2 : Nat) ^ k ≤ 2 ^ 64 := Nat.pow_le_pow_right (by norm_num) hk
    unfold not64 U64MOD
    omega
  rw [hmask, land_mask_eq x k hk hx, Nat.mul_comm]
  have := Nat.div_add_mod x (2 ^ k)
  unfold alignDown
  omega

theorem alignDown_le (x a : Nat) : alignDown x a ≤ x := by
  unfold alignDown
  omega

theorem alignDown_ge (x a : Nat) (ha : 0 < a) : x - (a - 1) ≤ alignDown x a := by
  have := Nat.mod_lt x ha
  unfold alignDown
  omega

theorem alignDown_eq_mul (x a : Nat) : alignDown x a = a * (x / a) := by
  have := Nat.div_add_mod x a
  unfold alignDown
  omega

theorem alignDown_dvd (x a : Nat) : a ∣ alignDown x a := by
  rw [alignDown_eq_mul]
  exact Dvd.intro _ rfl

/-! ## Characterizing a successful `provide` -/

/-- Bounds on the carved payload address.  `size'` and `align'` are the
normalized size and alignment, `p` the payload address computed by
`provide`; `can_provide` (conservatively) guarantees the carve stays inside
the chunk and clears both headers. -/
theorem payload_bounds (h : Header) (size' align' k p : Nat)
    (hpow : align' = 2 ^ k) (hk : k ≤ 63)
    (h32a : HEADER_SIZE ≤ align') (h32s : HEADER_SIZE ≤ size')
    (hend : h.addr + h.size ≤ 2 ^ 64)
    (hcan : size' + HEADER_SIZE * 2 + align' ≤ h.size)
    (hp : p = alignDown (h.end_addr - size') align') :
    h.addr + 2 * HEADER_SIZE < p ∧ p + size' ≤ h.end_addr ∧
      align' ∣ p ∧ HEADER_SIZE ∣ p ∧ size' ≤ h.end_addr := by
  have hapos : 0 < align' := by
    simp only [HEADER_SIZE] at h32a
    omega
  have hle : p ≤ h.end_addr - size' := hp ▸ alignDown_le _ _
  have hge : h.end_addr - size' - (align' - 1) ≤ p := hp ▸ alignDown_ge _ _ hapos
  have hdvd : align' ∣ p := hp ▸ alignDown_dvd _ _
  have h5k : 5 ≤ k := by
    have : (2 : Nat) ^ 5 ≤ 2 ^ k := by
      simp only [HEADER_SIZE] at h32a
      calc (2 : Nat) ^ 5 = 32 := by norm_num
        _ ≤ 2 ^ k := hpow ▸ h32a
    exact (Nat.pow_le_pow_iff_right (by norm_num)).mp this
  have h32dvd : HEADER_SIZE ∣ p := by
    have : (2 : Nat) ^ 5 ∣ 2 ^ k := pow_dvd_pow 2 h5k
    have := dvd_trans (hpow ▸ this) hdvd
    simpa [HEADER_SIZE, show (2 : Nat) ^ 5 = 32 by norm_num] using this
  simp only [HEADER_SIZE, Header.end_addr] at *
  omega

/-- A successful `provide`, written out.  The hypotheses are: the requested
size rounds up without overflow, the chunk is free, the normalized
alignment is a power of two (the `Layout` contract), the chunk lies in the
64-bit address space, and `can_provide` accepts the normalized request. -/
theorem provide_some (h : Header) (reqSize reqAlign s0 k size' align' p : Nat)
    (hs0 : round_up_to_nearest_pow2 reqSize = some s0)
    (hsize' : size' = max s0 HEADER_SIZE)
    (halign' : align' = max reqAlign HEADER_SIZE)
    (hp : p = alignDown (h.end_addr - size') align')
    (hfree : h.is_allocated = false)
    (hpow : align' = 2 ^ k) (hk : k ≤ 63)
    (hend : h.addr + h.size ≤ 2 ^ 64)
    (hcan : size' + HEADER_SIZE * 2 + align' ≤ h.size) :
    h.provide reqSize reqAlign =
      some
        (if p + size' ≠ h.end_addr then
           [⟨h.addr, h.size - ((size' + HEADER_SIZE) + (h.end_addr - (p + size'))), false⟩,
            ⟨p - HEADER_SIZE, size' + HEADER_SIZE, true⟩,
            ⟨p + size', h.end_addr - (p + size'), false⟩]
         else
           [⟨h.addr, h.size - (size' + HEADER_SIZE), false⟩,
            ⟨p - HEADER_SIZE, size' + HEADER_SIZE, true⟩],
         p) := by
  have h32a : HEADER_SIZE ≤ align' := by rw [halign']; exact le_max_right _ _
  have h32s : HEADER_SIZE ≤ size' := by rw [hsize']; exact le_max_right _ _
  obtain ⟨hgt, hple, hdvd, h32dvd, hsle⟩ :=
    payload_bounds h size' align' k p hpow hk h32a h32s hend hcan hp
  have hxlt : h.end_addr - size' < 2 ^ 64 := by
    simp only [HEADER_SIZE] at h32s
    simp only [Header.end_addr]
    omega
  have hland : Nat.land (h.end_addr - size') (not64 (align' - 1)) = p := by
    rw [hp, hpow, land_not64_pow2 _ k (by omega) hxlt, ← hpow]
  have hcanb : h.can_provide size' align' = true := by
    simp only [Header.can_provide, decide_eq_true_eq]
    exact hcan
  unfold Header.provide
  rw [hs0]
  simp only [Option.bind_eq_bind, Option.some_bind, ← hsize', ← halign', hfree, hcanb,
    Bool.not_true, Bool.or_false, Bool.false_or, if_neg (by simp : ¬((false : Bool) = true))]
  rw [hland]
  have hallocEnd : Header.end_addr ⟨p - HEADER_SIZE, size' + HEADER_SIZE, true⟩ = p + size' := by
    simp only [Header.end_addr, HEADER_SIZE] at *
    omega
  rw [hallocEnd]
  split
  · simp only [Option.some.injEq, Prod.mk.injEq, List.cons.injEq, and_true, true_and]
  · simp only [Option.some.injEq, Prod.mk.injEq, List.cons.injEq, and_true, true_and]

/-! ## Chain well-formedness -/

/-- The byte ranges `[a.addr, a.addr + a.size)` and `[b.addr, b.addr + b.size)`
of two chunks are disjoint. -/
def Header.disjointRange (a b : Header) : Prop :=
  a.addr + a.size ≤ b.addr ∨ b.addr + b.size ≤ a.addr

instance : DecidableRel Header.disjointRange := fun a b => by
  unfold Header.disjointRange
  infer_instance

theorem Header.disjointRange_symm {a b : Header} (h : a.disjointRange b) :
    b.disjointRange a := h.symm

/-- Geometric well-formedness of a single header: base and size are
multiples of the header size, the chunk is at least one header long, and it
fits in the 64-bit address space. -/
def hdrWF (h : Header) : Prop :=
  HEADER_SIZE ∣ h.addr ∧ HEADER_SIZE ∣ h.size ∧ HEADER_SIZE ≤ h.size ∧
    h.addr + h.size ≤ 2 ^ 64

instance (h : Header) : Decidable (hdrWF h) := by
  unfold hdrWF
  infer_instance

/-- Well-formedness of the whole chain: every chunk is well-formed and the
chunks occupy pairwise disjoint byte ranges. -/
def chainWF (c : List Header) : Prop :=
  (∀ h ∈ c, hdrWF h) ∧ c.Pairwise Header.disjointRange

instance (c : List Header) : Decidable (chainWF c) := by
  unfold chainWF
  infer_instance

/-- The maximum of two powers of two, as needed for the normalized alignment. -/
theorem max_pow2 (k j : Nat) : max (2 ^ k) (2 ^ j) = 2 ^ max k j := by
  rcases le_total k j with h | h
  · rw [max_eq_right (Nat.pow_le_pow_right (by norm_num) h), max_eq_right h]
  · rw [max_eq_left (Nat.pow_le_pow_right (by norm_num) h), max_eq_left h]

theorem norm_align_pow2 {a k : Nat} (hk : k ≤ 63) (ha : a = 2 ^ k) :
    max a HEADER_SIZE = 2 ^ max k 5 ∧ max k 5 ≤ 63 ∧
      HEADER_SIZE ≤ max a HEADER_SIZE := by
  have h32 : HEADER_SIZE = 2 ^ 5 := by norm_num [HEADER_SIZE]
  refine ⟨by rw [ha, h32, max_pow2], by omega, le_max_right _ _⟩

/-- Inverting a successful `provide`: recover the rounded size, the guard
facts, the payload formula and the produced segment. -/
theorem provide_some_elim (h : Header) (reqSize reqAlign : Nat) (seg : List Header)
    (p : Nat) (hk : ∃ k, k ≤ 63 ∧ reqAlign = 2 ^ k)
    (hend : h.addr + h.size ≤ 2 ^ 64)
    (hres : h.provide reqSize reqAlign = some (seg, p)) :
    ∃ s0 size',
      round_up_to_nearest_pow2 reqSize = some s0 ∧
      size' = max s0 HEADER_SIZE ∧
      h.is_allocated = false ∧
      size' + HEADER_SIZE * 2 + max reqAlign HEADER_SIZE ≤ h.size ∧
      p = alignDown (h.end_addr - size') (max reqAlign HEADER_SIZE) ∧
      seg =
        (if p + size' ≠ h.end_addr then
           [⟨h.addr, h.size - ((size' + HEADER_SIZE) + (h.end_addr - (p + size'))), false⟩,
            ⟨p - HEADER_SIZE, size' + HEADER_SIZE, true⟩,
            ⟨p + size', h.end_addr - (p + size'), false⟩]
         else
           [⟨h.addr, h.size - (size' + HEADER_SIZE), false⟩,
            ⟨p - HEADER_SIZE, size' + HEADER_SIZE, true⟩]) := by
  obtain ⟨k, hk63, hka⟩ := hk
  obtain ⟨hmax, hmax63, -⟩ := norm_align_pow2 hk63 hka
  cases hrup : round_up_to_nearest_pow2 reqSize with
  | none =>
    rw [Header.provide, hrup] at hres
    simp at hres
  | some s0 =>
    by_cases hfree : h.is_allocated
    · rw [Header.provide, hrup] at hres
      simp [hfree] at hres
    · by_cases hcan :
        h.can_provide (max s0 HEADER_SIZE) (max reqAlign HEADER_SIZE) = true
      · have hfree' : h.is_allocated = false := by simp [hfree]
        have hcan' :
            max s0 HEADER_SIZE + HEADER_SIZE * 2 + max reqAlign HEADER_SIZE ≤ h.size := by
          simpa [Header.can_provide] using hcan
        have := provide_some h reqSize reqAlign s0 (max k 5) (max s0 HEADER_SIZE)
          (max reqAlign HEADER_SIZE)
          (alignDown (h.end_addr - max s0 HEADER_SIZE) (max reqAlign HEADER_SIZE))
          hrup rfl rfl rfl hfree' hmax hmax63 hend hcan'
        rw [this] at hres
        simp only [Option.some.injEq, Prod.mk.injEq] at hres
        obtain ⟨hseg, hp⟩ := hres
        rw [hp] at hseg
        refine ⟨s0, max s0 HEADER_SIZE, rfl, rfl, hfree', hcan', hp.symm, hseg.symm⟩
      · rw [Header.provide, hrup] at hres
        rw [Bool.not_eq_true] at hcan
        simp [hcan] at hres

/-- Geometric consequences of a successful `provide` on a well-formed
chunk: the replacement segment is made of well-formed chunks that partition
(a prefix of) the original chunk's byte range, exactly one of them is
allocated — the one whose header immediately precedes the returned payload
`p` — and the payload has room for the requested size. -/
theorem provide_seg_spec (h : Header) (reqSize reqAlign : Nat) (seg : List Header)
    (p : Nat) (hWF : hdrWF h)
    (hk : ∃ k, k ≤ 63 ∧ reqAlign = 2 ^ k)
    (hreq : reqSize < 2 ^ 64)
    (hres : h.provide reqSize reqAlign = some (seg, p)) :
    h.is_allocated = false ∧
    (∀ g ∈ seg, hdrWF g) ∧
    seg.Pairwise Header.disjointRange ∧
    (∀ g ∈ seg, h.addr ≤ g.addr ∧ g.addr + g.size ≤ h.addr + h.size) ∧
    (∃ size', reqSize ≤ size' ∧
      Header.mk (p - HEADER_SIZE) (size' + HEADER_SIZE) true ∈ seg ∧
      (∀ g ∈ seg, g.is_allocated = true →
        g = Header.mk (p - HEADER_SIZE) (size' + HEADER_SIZE) true) ∧
      p = (p - HEADER_SIZE) + HEADER_SIZE ∧
      h.addr + 2 * HEADER_SIZE < p) := by
  obtain ⟨hdvdA, hdvdS, hszlb, hendle⟩ := hWF
  obtain ⟨k, hk63, hka⟩ := hk
  obtain ⟨hmax, hmax63, h32a⟩ := norm_align_pow2 hk63 hka
  obtain ⟨s0, size', hrup, hsize', hfree, hcan, hp, hseg⟩ :=
    provide_some_elim h reqSize reqAlign seg p ⟨k, hk63, hka⟩ hendle hres
  have h32s : HEADER_SIZE ≤ size' := hsize' ▸ le_max_right _ _
  obtain ⟨⟨j, hj⟩, hs0ge, -⟩ := rup_spec hreq hrup
  have hreqle : reqSize ≤ size' := le_trans hs0ge (hsize' ▸ le_max_left _ _)
  have hdvdSize' : HEADER_SIZE ∣ size' := by
    have : max s0 HEADER_SIZE = 2 ^ max j 5 := by
      rw [hj, show HEADER_SIZE = 2 ^ 5 by norm_num [HEADER_SIZE], max_pow2]
    rw [hsize', this, show HEADER_SIZE = 2 ^ 5 by norm_num [HEADER_SIZE]]
    exact pow_dvd_pow 2 (le_max_right _ _)
  obtain ⟨hgt, hple, hdvdP', hdvdP, hsle⟩ :=
    payload_bounds h size' (max reqAlign HEADER_SIZE) (max k 5) p hmax hmax63 h32a h32s
      hendle (by omega) hp
  simp only [HEADER_SIZE] at hdvdA hdvdS hszlb h32s hdvdSize' hgt hple hdvdP hsle h32a ⊢
  simp only [Header.end_addr] at hple hsle hseg
  rw [hseg]
  clear hseg hres hp hdvdP' hrup
  by_cases hpad : p + size' ≠ h.addr + h.size
  · rw [if_pos (by simpa [Header.end_addr, HEADER_SIZE] using hpad)]
    simp only [HEADER_SIZE]
    refine ⟨hfree, ?_, ?_, ?_, size', hreqle, ?_, ?_, by omega, by omega⟩
    · intro g hg
      simp only [List.mem_cons, List.not_mem_nil, or_false] at hg
      unfold hdrWF
      simp only [HEADER_SIZE]
      rcases hg with rfl | rfl | rfl <;> simp only [] <;> omega
    · refine List.Pairwise.cons ?_
        (List.Pairwise.cons ?_ (List.Pairwise.cons (by simp) List.Pairwise.nil))
      · intro a ha
        simp only [List.mem_cons, List.mem_singleton, List.not_mem_nil, or_false] at ha
        unfold Header.disjointRange
        rcases ha with rfl | rfl <;> simp only [] <;> omega
      · intro a ha
        simp only [List.mem_cons, List.mem_singleton, List.not_mem_nil, or_false] at ha
        unfold Header.disjointRange
        subst ha
        simp only []
        omega
    · intro g hg
      simp only [List.mem_cons, List.not_mem_nil, or_false] at hg
      rcases hg with rfl | rfl | rfl <;> simp only [] <;> omega
    · simp
    · intro g hg
      simp only [List.mem_cons, List.not_mem_nil, or_false] at hg
      rcases hg with rfl | rfl | rfl <;> simp
  · rw [if_neg (by simpa [Header.end_addr, HEADER_SIZE] using hpad)]
    push_neg at hpad
    simp only [HEADER_SIZE]
    refine ⟨hfree, ?_, ?_, ?_, size', hreqle, ?_, ?_, by omega, by omega⟩
    · intro g hg
      simp only [List.mem_cons, List.not_mem_nil, or_false] at hg
      unfold hdrWF
      simp only [HEADER_SIZE]
      rcases hg with rfl | rfl <;> simp only [] <;> omega
    · refine List.Pairwise.cons ?_ (List.Pairwise.cons (by simp) List.Pairwise.nil)
      intro a ha
      simp only [List.mem_cons, List.mem_singleton, List.not_mem_nil, or_false] at ha
      unfold Header.disjointRange
      subst ha
      simp only []
      omega
    · intro g hg
      simp only [List.mem_cons, List.not_mem_nil, or_false] at hg
      rcases hg with rfl | rfl <;> simp only [] <;> omega
    · simp
    · intro g hg
      simp only [List.mem_cons, List.not_mem_nil, or_false] at hg
      rcases hg with rfl | rfl <;> simp

/-! ## Operation sequences

The allocator's public operations, replayed against the chain model.  The
`live` ledger records the currently outstanding allocations `(pointer,
layout)`; it is bookkeeping for stating the non-overlap invariant, not part
of the allocator's own state. -/

inductive Op where
  | init (memory_map : List EfiMemoryDescriptor)
  | alloc (layout : Layout)
  | dealloc (ptr : Nat) (layout : Layout)
deriving DecidableEq, Repr

structure AllocState where
  chain : List Header
  live : List (Nat × Layout)
deriving DecidableEq, Repr

def initialState : AllocState := ⟨[], []⟩

def applyOp (s : AllocState) : Op → AllocState
  | .init mmap => ⟨init_with_mmap s.chain mmap, s.live⟩
  | .alloc L =>
    match allocChain s.chain L.size L.align with
    | some (c', p) => ⟨c', (p, L) :: s.live⟩
    | none => s
  | .dealloc ptr L => ⟨dealloc s.chain ptr L, s.live.filter (fun e => e.1 ≠ ptr)⟩

def execOps (s : AllocState) : List Op → AllocState
  | [] => s
  | op :: ops => execOps (applyOp s op) ops

/-- The byte region a memory-map descriptor describes. -/
def descDisj (d e : EfiMemoryDescriptor) : Prop :=
  d.physical_start + d.number_of_pages * 4096 ≤ e.physical_start ∨
    e.physical_start + e.number_of_pages * 4096 ≤ d.physical_start

instance : DecidableRel descDisj := fun a b => by
  unfold descDisj
  infer_instance

/-- A descriptor handed to `init_with_mmap` describes real, page-aligned
physical memory (the UEFI contract) that is not already managed by the
chain. -/
def descWF (c : List Header) (d : EfiMemoryDescriptor) : Prop :=
  4096 ∣ d.physical_start ∧ d.physical_start + d.number_of_pages * 4096 ≤ 2 ^ 64 ∧
    ∀ h ∈ c, d.physical_start + d.number_of_pages * 4096 ≤ h.addr ∨
      h.addr + h.size ≤ d.physical_start

instance (c : List Header) (d : EfiMemoryDescriptor) : Decidable (descWF c d) := by
  unfold descWF
  infer_instance

instance (n : Nat) : Decidable (∃ k, k ≤ 63 ∧ n = 2 ^ k) :=
  decidable_of_iff (∃ k ∈ List.range 64, n = 2 ^ k) (by
    simp only [List.mem_range]
    constructor
    · rintro ⟨k, hk, hh⟩
      exact ⟨k, by omega, hh⟩
    · rintro ⟨k, hk, hh⟩
      exact ⟨k, by omega, hh⟩)

/-- The environment's obligations for one operation: `init` is fed genuine
firmware memory (conventional regions pairwise disjoint, page aligned, in
the address space, and not overlapping the heap); `alloc` is called with a
`Layout` (power-of-two alignment, representable size); `dealloc` is called
on a currently-live pointer (anything else is undefined behaviour by the
spec's caller contract). -/
def stepOK (s : AllocState) : Op → Prop
  | .init mmap =>
    (mmap.Pairwise fun d e =>
      d.memory_type = EfiMemoryType.CONVENTIONAL_MEMORY →
      e.memory_type = EfiMemoryType.CONVENTIONAL_MEMORY → descDisj d e) ∧
    ∀ d ∈ mmap, d.memory_type = EfiMemoryType.CONVENTIONAL_MEMORY → descWF s.chain d
  | .alloc L => (∃ k, k ≤ 63 ∧ L.align = 2 ^ k) ∧ L.size < 2 ^ 64
  | .dealloc ptr _ => ∃ e ∈ s.live, e.1 = ptr

instance (s : AllocState) (op : Op) : Decidable (stepOK s op) := by
  cases op <;> simp only [stepOK] <;> infer_instance

def opsOK (s : AllocState) : List Op → Prop
  | [] => True
  | op :: ops => stepOK s op ∧ opsOK (applyOp s op) ops

instance instDecidableOpsOK : (ops : List Op) → (s : AllocState) → Decidable (opsOK s ops)
  | [], _ => isTrue trivial
  | op :: ops, s =>
    have := instDecidableOpsOK ops (applyOp s op)
    inferInstanceAs (Decidable (_ ∧ _))

/-- The ledger invariant: every live allocation sits immediately after an
allocated header of the chain with room for its requested size, and live
pointers are pairwise distinct. -/
def liveOK (s : AllocState) : Prop :=
  (∀ e ∈ s.live, ∃ g ∈ s.chain, g.is_allocated = true ∧
    e.1 = g.addr + HEADER_SIZE ∧ e.1 + e.2.size ≤ g.addr + g.size) ∧
  s.live.Pairwise fun a b => a.1 ≠ b.1

/-- The global invariant maintained by every operation. -/
def Inv (s : AllocState) : Prop := chainWF s.chain ∧ liveOK s

theorem Inv_initialState : Inv initialState := by
  refine ⟨⟨?_, ?_⟩, ?_, ?_⟩ <;> simp [initialState, chainWF, liveOK]

/-! ## Preservation lemmas -/

/-- In a well-formed chain, two members with different base addresses have
disjoint byte ranges. -/
theorem chainWF_mem_disjoint {c : List Header} (hWF : chainWF c) {a b : Header}
    (ha : a ∈ c) (hb : b ∈ c) (hne : a.addr ≠ b.addr) : a.disjointRange b := by
  obtain ⟨-, hpw⟩ := hWF
  induction c with
  | nil => cases ha
  | cons hd tl ih =>
    rw [List.pairwise_cons] at hpw
    rcases List.mem_cons.mp ha with rfl | ha' <;>
      rcases List.mem_cons.mp hb with rfl | hb'
    · exact absurd rfl hne
    · exact hpw.1 b hb'
    · exact (hpw.1 a ha').symm
    · exact ih ha' hb' hpw.2

/-- In a well-formed chain, a member is determined by its base address. -/
theorem chainWF_mem_addr_inj {c : List Header} (hWF : chainWF c) {a b : Header}
    (ha : a ∈ c) (hb : b ∈ c) (haddr : a.addr = b.addr) : a = b := by
  by_contra hne
  by_cases haddr' : a.addr = b.addr
  · have hsa := (hWF.1 a ha).2.2.1
    have hsb := (hWF.1 b hb).2.2.1
    rcases Decidable.em (a.addr ≠ b.addr) with h | h
    · exact h haddr'
    · have hdis : a.disjointRange b ∨ a = b := by
        rcases Decidable.em (a = b) with he | he
        · exact Or.inr he
        · left
          obtain ⟨-, hpw⟩ := hWF
          clear hsa hsb
          induction c with
          | nil => cases ha
          | cons hd tl ih =>
            rw [List.pairwise_cons] at hpw
            rcases List.mem_cons.mp ha with rfl | ha' <;>
              rcases List.mem_cons.mp hb with rfl | hb'
            · exact absurd rfl he
            · exact hpw.1 b hb'
            · exact (hpw.1 a ha').symm
            · exact ih ha' hb' hpw.2
      rcases hdis with hdis | he
      · unfold Header.disjointRange at hdis
        simp only [HEADER_SIZE] at hsa hsb
        omega
      · exact hne he
  · exact haddr' haddr

theorem dealloc_map_addr (ptr : Nat) (L : Layout) (g : Header) :
    ((if g.addr = ptr - HEADER_SIZE then { g with is_allocated := false } else g) : Header).addr
      = g.addr ∧
    ((if g.addr = ptr - HEADER_SIZE then { g with is_allocated := false } else g) : Header).size
      = g.size := by
  split <;> simp

/-- Deallocation only clears a flag: the chain stays well-formed. -/
theorem dealloc_chainWF (c : List Header) (ptr : Nat) (L : Layout)
    (hWF : chainWF c) : chainWF (dealloc c ptr L) := by
  obtain ⟨hall, hpw⟩ := hWF
  constructor
  · intro g hg
    rw [dealloc, List.mem_map] at hg
    obtain ⟨g0, hg0, rfl⟩ := hg
    have := hall g0 hg0
    unfold hdrWF at this ⊢
    obtain ⟨h1, h2⟩ := dealloc_map_addr ptr L g0
    rw [h1, h2]
    exact this
  · rw [dealloc]
    rw [List.pairwise_map]
    refine hpw.imp_of_mem ?_
    intro a b _ _ hab
    unfold Header.disjointRange at hab ⊢
    obtain ⟨ha1, ha2⟩ := dealloc_map_addr ptr L a
    obtain ⟨hb1, hb2⟩ := dealloc_map_addr ptr L b
    rw [ha1, ha2, hb1, hb2]
    exact hab

/-- Deallocating a live pointer preserves the invariant. -/
theorem Inv_dealloc (s : AllocState) (ptr : Nat) (L : Layout)
    (hInv : Inv s) (hok : stepOK s (.dealloc ptr L)) :
    Inv (applyOp s (.dealloc ptr L)) := by
  obtain ⟨hWF, hlive, hpw⟩ := hInv
  obtain ⟨e0, he0, he0p⟩ := hok
  obtain ⟨g0, hg0, hg0a, hg0p, -⟩ := hlive e0 he0
  refine ⟨dealloc_chainWF s.chain ptr L hWF, ?_, ?_⟩
  · intro e he
    simp only [applyOp, List.mem_filter, decide_eq_true_eq] at he
    obtain ⟨he, hene⟩ := he
    obtain ⟨g, hg, hga, hgp, hgs⟩ := hlive e he
    refine ⟨g, ?_, hga, hgp, hgs⟩
    simp only [applyOp, dealloc, List.mem_map]
    refine ⟨g, hg, ?_⟩
    have hne : ¬(g.addr = ptr - HEADER_SIZE) := by
      simp only [HEADER_SIZE] at hgp hg0p he0p ⊢
      omega
    rw [if_neg hne]
  · simp only [applyOp]
    exact hpw.filter _

/-- A successful chain walk is a first-fit split: a prefix of chunks that
all refuse, the first chunk that provides, and the untouched suffix; the
new chain substitutes the returned segment for that chunk. -/
theorem allocChain_some_elim (c : List Header) (size align : Nat)
    (c' : List Header) (p : Nat)
    (h : allocChain c size align = some (c', p)) :
    ∃ pre hd seg post,
      c = pre ++ hd :: post ∧
      (∀ g ∈ pre, g.provide size align = none) ∧
      hd.provide size align = some (seg, p) ∧
      c' = pre ++ (seg ++ post) := by
  induction c generalizing c' with
  | nil => simp [allocChain] at h
  | cons hd tl ih =>
    rw [allocChain] at h
    cases hp : hd.provide size align with
    | some sp =>
      rw [hp] at h
      obtain ⟨seg0, p0⟩ := sp
      simp only [allocChainStep, Option.some.injEq, Prod.mk.injEq] at h
      obtain ⟨hc', hpp⟩ := h
      exact ⟨[], hd, seg0, tl, by simp, by simp, by rw [hp, hpp], by simp [hc']⟩
    | none =>
      rw [hp] at h
      cases hrec : allocChain tl size align with
      | some rp =>
        rw [hrec] at h
        obtain ⟨rest', p0⟩ := rp
        simp only [allocChainStep, Option.some.injEq, Prod.mk.injEq] at h
        obtain ⟨hc', hpp⟩ := h
        obtain ⟨pre, hd1, seg, post, htl, hpre, hprov, hrest⟩ := ih rest' (hpp ▸ hrec)
        exact ⟨hd :: pre, hd1, seg, post, by simp [htl],
          by simpa [hp] using hpre, hprov, by simp [← hc', hrest]⟩
      | none =>
        rw [hrec] at h
        simp [allocChainStep] at h

/-- The chain walk fails exactly when every chunk refuses. -/
theorem allocChain_none_iff (c : List Header) (size align : Nat) :
    allocChain c size align = none ↔ ∀ g ∈ c, g.provide size align = none := by
  induction c with
  | nil => simp [allocChain]
  | cons hd tl ih =>
    rw [allocChain]
    cases hp : hd.provide size align with
    | some sp => simp [hp, allocChainStep]
    | none =>
      cases hrec : allocChain tl size align with
      | some rp => simp [hp, hrec, allocChainStep, ← ih]
      | none => simp [hp, hrec, allocChainStep, ← ih]

theorem disjointRange_of_within {hd a g : Header}
    (hsub : hd.addr ≤ a.addr ∧ a.addr + a.size ≤ hd.addr + hd.size)
    (hdis : g.disjointRange hd) : g.disjointRange a := by
  unfold Header.disjointRange at hdis ⊢
  omega

/-- A successful or failed `alloc` preserves the invariant. -/
theorem Inv_alloc (s : AllocState) (L : Layout)
    (hInv : Inv s) (hok : stepOK s (.alloc L)) :
    Inv (applyOp s (.alloc L)) := by
  obtain ⟨⟨hWFall, hWFpw⟩, hliveH, hlivePW⟩ := hInv
  obtain ⟨hkpow, hsz⟩ := hok
  simp only [applyOp]
  cases hac : allocChain s.chain L.size L.align with
  | none => exact ⟨⟨hWFall, hWFpw⟩, hliveH, hlivePW⟩
  | some cp =>
    obtain ⟨c', p⟩ := cp
    obtain ⟨pre, hd, seg, post, hceq, hpre, hprov, hc'⟩ :=
      allocChain_some_elim _ _ _ _ _ hac
    have hWFhd : hdrWF hd := hWFall hd (by rw [hceq]; simp)
    obtain ⟨hhdfree, hsegWF, hsegPW, hsegSub, size', hLle, hAmem, hAuniq, hp32, hpgt⟩ :=
      provide_seg_spec hd L.size L.align seg p hWFhd hkpow hsz hprov
    rw [hceq] at hWFpw hWFall
    rw [List.pairwise_append] at hWFpw
    obtain ⟨hpwPre, hpwCons, hcross⟩ := hWFpw
    rw [List.pairwise_cons] at hpwCons
    obtain ⟨hhdpost, hpwPost⟩ := hpwCons
    have hAwf : hdrWF ⟨p - HEADER_SIZE, size' + HEADER_SIZE, true⟩ := hsegWF _ hAmem
    have hAsub := hsegSub _ hAmem
    refine ⟨⟨?_, ?_⟩, ?_, ?_⟩
    · -- every chunk of the new chain is well-formed
      rw [hc']
      intro g hg
      rcases List.mem_append.mp hg with hgpre | hgrest
      · exact hWFall g (List.mem_append.mpr (Or.inl hgpre))
      · rcases List.mem_append.mp hgrest with hgseg | hgpost
        · exact hsegWF g hgseg
        · exact hWFall g (List.mem_append.mpr (Or.inr (List.mem_cons_of_mem hd hgpost)))
    · -- the new chain is pairwise disjoint
      rw [hc', List.pairwise_append]
      refine ⟨hpwPre, ?_, ?_⟩
      · rw [List.pairwise_append]
        refine ⟨hsegPW, hpwPost, ?_⟩
        intro a ha b hb
        exact ((disjointRange_of_within (hsegSub a ha) (hhdpost b hb).symm)).symm
      · intro a ha b hb
        rcases List.mem_append.mp hb with hbseg | hbpost
        · exact disjointRange_of_within (hsegSub b hbseg)
            (hcross a ha hd (List.mem_cons_self hd post))
        · exact hcross a ha b (List.mem_cons_of_mem hd hbpost)
    · -- every live entry has its allocated header in the new chain
      intro e he
      rcases List.mem_cons.mp he with rfl | hold
      · refine ⟨⟨p - HEADER_SIZE, size' + HEADER_SIZE, true⟩, ?_, rfl, hp32, ?_⟩
        · rw [hc']
          exact List.mem_append.mpr (Or.inr (List.mem_append.mpr (Or.inl hAmem)))
        · dsimp only
          omega
      · obtain ⟨g, hg, hga, hgp, hgs⟩ := hliveH e hold
        refine ⟨g, ?_, hga, hgp, hgs⟩
        rw [hceq] at hg
        rw [hc']
        rcases List.mem_append.mp hg with hgpre | hgrest
        · exact List.mem_append.mpr (Or.inl hgpre)
        · rcases List.mem_cons.mp hgrest with rfl | hgpost
          · rw [hhdfree] at hga
            cases hga
          · exact List.mem_append.mpr (Or.inr (List.mem_append.mpr (Or.inr hgpost)))
    · -- live pointers stay pairwise distinct
      rw [List.pairwise_cons]
      refine ⟨?_, hlivePW⟩
      intro e he
      obtain ⟨g, hg, hga, hgp, hgs⟩ := hliveH e he
      rw [hceq] at hg
      have hgd : g.disjointRange ⟨p - HEADER_SIZE, size' + HEADER_SIZE, true⟩ := by
        rcases List.mem_append.mp hg with hgpre | hgrest
        · exact disjointRange_of_within hAsub
            (hcross g hgpre hd (List.mem_cons_self hd post))
        · rcases List.mem_cons.mp hgrest with rfl | hgpost
          · rw [hhdfree] at hga
            cases hga
          · exact disjointRange_of_within hAsub (hhdpost g hgpost).symm
      unfold Header.disjointRange at hgd
      unfold hdrWF at hAwf
      dsimp only at hgd hAwf
      simp only [HEADER_SIZE] at hgd hgp hp32 hAwf
      omega

/-- Ingesting one well-formed conventional descriptor keeps the chain
well-formed, keeps every old chunk, and adds at most one free chunk lying
inside the descriptor's region. -/
theorem add_free_chainWF (c : List Header) (d : EfiMemoryDescriptor)
    (hWF : chainWF c) (hd : descWF c d) :
    chainWF (add_free_from_descriptor c d) ∧
    (∀ g ∈ c, g ∈ add_free_from_descriptor c d) ∧
    (∀ g ∈ add_free_from_descriptor c d, g ∈ c ∨
      (d.physical_start ≤ g.addr ∧
        g.addr + g.size ≤ d.physical_start + d.number_of_pages * 4096)) := by
  obtain ⟨hdvd, hle, hdisj⟩ := hd
  unfold add_free_from_descriptor
  by_cases h0 : d.physical_start = 0 <;> simp only [h0, if_true, if_false] <;> split
  · exact ⟨hWF, fun g hg => hg, fun g hg => Or.inl hg⟩
  · rename_i hguard
    rw [Nat.not_le] at hguard
    refine ⟨⟨?_, ?_⟩, fun g hg => List.mem_cons_of_mem _ hg, ?_⟩
    · intro g hg
      rcases List.mem_cons.mp hg with rfl | hg'
      · unfold hdrWF
        dsimp only
        simp only [HEADER_SIZE]
        omega
      · exact hWF.1 g hg'
    · rw [List.pairwise_cons]
      refine ⟨?_, hWF.2⟩
      intro b hb
      have := hdisj b hb
      unfold Header.disjointRange
      dsimp only
      omega
    · intro g hg
      rcases List.mem_cons.mp hg with rfl | hg'
      · right
        dsimp only
        omega
      · exact Or.inl hg'
  · exact ⟨hWF, fun g hg => hg, fun g hg => Or.inl hg⟩
  · rename_i hguard
    rw [Nat.not_le] at hguard
    refine ⟨⟨?_, ?_⟩, fun g hg => List.mem_cons_of_mem _ hg, ?_⟩
    · intro g hg
      rcases List.mem_cons.mp hg with rfl | hg'
      · unfold hdrWF
        dsimp only
        have h32 : (32 : Nat) ∣ 4096 := by norm_num
        refine ⟨?_, ?_, by simp only [HEADER_SIZE]; omega, by omega⟩
        · simp only [HEADER_SIZE]
          exact dvd_trans h32 hdvd
        · simp only [HEADER_SIZE]
          exact dvd_trans h32 (dvd_mul_left 4096 d.number_of_pages)
      · exact hWF.1 g hg'
    · rw [List.pairwise_cons]
      refine ⟨?_, hWF.2⟩
      intro b hb
      have := hdisj b hb
      unfold Header.disjointRange
      dsimp only
      omega
    · intro g hg
      rcases List.mem_cons.mp hg with rfl | hg'
      · right
        dsimp only
        omega
      · exact Or.inl hg'

/-- Folding a pairwise-disjoint, heap-disjoint memory map into the chain
preserves well-formedness and keeps every old chunk. -/
theorem init_inv (mmap : List EfiMemoryDescriptor) (c : List Header)
    (hWF : chainWF c)
    (hpw : mmap.Pairwise fun d e => d.memory_type = EfiMemoryType.CONVENTIONAL_MEMORY →
        e.memory_type = EfiMemoryType.CONVENTIONAL_MEMORY → descDisj d e)
    (hall : ∀ d ∈ mmap, d.memory_type = EfiMemoryType.CONVENTIONAL_MEMORY →
        descWF c d) :
    chainWF (init_with_mmap c mmap) ∧ ∀ g ∈ c, g ∈ init_with_mmap c mmap := by
  induction mmap generalizing c with
  | nil => exact ⟨hWF, fun g hg => hg⟩
  | cons d rest ih =>
    rw [List.pairwise_cons] at hpw
    obtain ⟨hpwd, hpwrest⟩ := hpw
    have hstep : init_with_mmap c (d :: rest) =
        init_with_mmap
          (if d.memory_type ≠ EfiMemoryType.CONVENTIONAL_MEMORY then c
           else add_free_from_descriptor c d) rest := by
      simp [init_with_mmap]
    rw [hstep]
    by_cases hconv : d.memory_type = EfiMemoryType.CONVENTIONAL_MEMORY
    · rw [if_neg (by simp [hconv])]
      obtain ⟨hWF', hkeep, hchar⟩ :=
        add_free_chainWF c d hWF (hall d (List.mem_cons_self d rest) hconv)
      have hrest' : ∀ e ∈ rest, e.memory_type = EfiMemoryType.CONVENTIONAL_MEMORY →
          descWF (add_free_from_descriptor c d) e := by
        intro e he hconve
        obtain ⟨edvd, ele, edisj⟩ := hall e (List.mem_cons_of_mem d he) hconve
        refine ⟨edvd, ele, ?_⟩
        intro g hg
        rcases hchar g hg with hg' | ⟨hga, hgb⟩
        · exact edisj g hg'
        · have hdd := hpwd e he hconv hconve
          unfold descDisj at hdd
          omega
      obtain ⟨hfin, hsub⟩ := ih (add_free_from_descriptor c d) hWF' hpwrest hrest'
      exact ⟨hfin, fun g hg => hsub g (hkeep g hg)⟩
    · rw [if_pos (by simp [hconv])]
      exact ih c hWF hpwrest fun e he hconve =>
        hall e (List.mem_cons_of_mem d he) hconve

/-- Initializing from a well-formed memory map preserves the invariant. -/
theorem Inv_init (s : AllocState) (mmap : List EfiMemoryDescriptor)
    (hInv : Inv s) (hok : stepOK s (.init mmap)) :
    Inv (applyOp s (.init mmap)) := by
  obtain ⟨hWF, hliveH, hlivePW⟩ := hInv
  obtain ⟨hpw, hall⟩ := hok
  obtain ⟨hWF', hsub⟩ := init_inv mmap s.chain hWF hpw hall
  refine ⟨hWF', ?_, hlivePW⟩
  intro e he
  obtain ⟨g, hg, h1, h2, h3⟩ := hliveH e he
  exact ⟨g, hsub g hg, h1, h2, h3⟩

/-- Every permitted operation preserves the invariant. -/
theorem Inv_applyOp (s : AllocState) (op : Op) (hInv : Inv s)
    (hok : stepOK s op) : Inv (applyOp s op) := by
  cases op with
  | init mmap => exact Inv_init s mmap hInv hok
  | alloc L => exact Inv_alloc s L hInv hok
  | dealloc ptr L => exact Inv_dealloc s ptr L hInv hok

/-- The invariant holds after any permitted operation sequence. -/
theorem Inv_execOps (ops : List Op) (s : AllocState) (hInv : Inv s)
    (hok : opsOK s ops) : Inv (execOps s ops) := by
  induction ops generalizing s with
  | nil => exact hInv
  | cons op ops ih =>
    obtain ⟨h1, h2⟩ := hok
    exact ih (applyOp s op) (Inv_applyOp s op hInv h1) h2

/-! ## Claim theorems -/

/-- C6: `round_up_to_nearest_pow2 v` signals an error exactly when `v = 0`
or when the smallest power of two at least `v` does not fit in the address
word (`v > 2 ^ 63`); for every other `v` it returns the smallest power of
two at least `v`, i.e. a power of two `r` with `v ≤ r` and `r / 2 < v`,
matching the table `rup 1 = 1`, `rup 2 = 2`, `rup 3 = 4`, `rup 4 = 4`,
`rup 5 = 8`, `rup 9 = 16`, `rup (2 ^ 63) = 2 ^ 63`. -/
theorem c6_round_up_pow2_spec (v : Nat) (hv : v < 2 ^ 64) :
    (round_up_to_nearest_pow2 v = none ↔ v = 0 ∨ 2 ^ 63 < v) ∧
    (∀ r, round_up_to_nearest_pow2 v = some r →
      (∃ k, r = 2 ^ k) ∧ v ≤ r ∧ r / 2 < v) ∧
    round_up_to_nearest_pow2 1 = some 1 ∧
    round_up_to_nearest_pow2 2 = some 2 ∧
    round_up_to_nearest_pow2 3 = some 4 ∧
    round_up_to_nearest_pow2 4 = some 4 ∧
    round_up_to_nearest_pow2 5 = some 8 ∧
    round_up_to_nearest_pow2 9 = some 16 ∧
    round_up_to_nearest_pow2 (2 ^ 63) = some (2 ^ 63) :=
  ⟨rup_eq_none_iff hv, fun _ h => rup_spec hv h,
    by decide, by decide, by decide, by decide, by decide, by decide, by decide⟩

theorem c6_round_up_pow2_spec_witness :
    5 < 2 ^ 64 ∧
    (round_up_to_nearest_pow2 5 = none ↔ 5 = 0 ∨ 2 ^ 63 < 5) ∧
    (∀ r, round_up_to_nearest_pow2 5 = some r →
      (∃ k, r = 2 ^ k) ∧ 5 ≤ r ∧ r / 2 < 5) ∧
    round_up_to_nearest_pow2 1 = some 1 ∧
    round_up_to_nearest_pow2 2 = some 2 ∧
    round_up_to_nearest_pow2 3 = some 4 ∧
    round_up_to_nearest_pow2 4 = some 4 ∧
    round_up_to_nearest_pow2 5 = some 8 ∧
    round_up_to_nearest_pow2 9 = some 16 ∧
    round_up_to_nearest_pow2 (2 ^ 63) = some (2 ^ 63) :=
  ⟨by decide, c6_round_up_pow2_spec 5 (by decide)⟩

/-- C9 (counterexample): the claim says a request of size `0` against a free
chunk with ample headroom is normalized to `H` and succeeds; but
`round_up_to_nearest_pow2 0` signals out-of-range, so `provide` returns no
allocation even on a free 16-KiB chunk. -/
theorem c9_counterexample :
    Header.provide ⟨4096, 16384, false⟩ 0 16 = none := by decide

/-- C9 (amended): a request of size `0` always fails inside `provide`:
`round_up_to_nearest_pow2 0` signals out-of-range before any normalization
to `H` can happen, so `provide` returns no allocation regardless of the
chunk's headroom. -/
theorem c9_zero_size_fails (h : Header) (align : Nat) :
    h.provide 0 align = none := by
  rw [Header.provide]
  have h0 : round_up_to_nearest_pow2 0 = none := by decide
  rw [h0]
  rfl

/-- C10: `dealloc` ignores its layout argument entirely: from any chain and
any state, deallocating with two different layouts produces identical
results. -/
theorem c10_dealloc_layout_independent (c : List Header) (ptr : Nat)
    (L1 L2 : Layout) :
    dealloc c ptr L1 = dealloc c ptr L2 ∧
    ∀ s : AllocState, applyOp s (.dealloc ptr L1) = applyOp s (.dealloc ptr L2) :=
  ⟨rfl, fun _ => rfl⟩

/-- The per-descriptor header construction exactly as the claim describes
it: for a conventional-memory descriptor derive `(start, bytes) =
(physical_start, page_count * 4096)`, advance past page zero when
`start = 0`, skip when at most one page is left, and otherwise produce the
free header placed at `start`. -/
def qualifying_header (e : EfiMemoryDescriptor) : Option Header :=
  if e.memory_type ≠ EfiMemoryType.CONVENTIONAL_MEMORY then none
  else
    let start := if e.physical_start = 0 then e.physical_start + 4096
                 else e.physical_start
    let bytes := if e.physical_start = 0 then e.number_of_pages * 4096 - 4096
                 else e.number_of_pages * 4096
    if bytes ≤ 4096 then none else some ⟨start, bytes, false⟩

/-- The qualifying descriptors' headers, in descriptor order. -/
def qualifying_headers (mmap : List EfiMemoryDescriptor) : List Header :=
  mmap.filterMap qualifying_header

set_option maxRecDepth 2048 in
theorem step_eq_qualifying (chain : List Header) (d : EfiMemoryDescriptor) :
    (if d.memory_type ≠ EfiMemoryType.CONVENTIONAL_MEMORY then chain
     else add_free_from_descriptor chain d) =
      match qualifying_header d with
      | none => chain
      | some h => h :: chain := by
  unfold qualifying_header add_free_from_descriptor
  split_ifs <;> simp
  all_goals (split <;> rename_i hcond <;> simp [hcond])

/-- C7: `init_with_mmap` processes exactly the conventional-memory
descriptors, in order, prepending for each qualifying one a free header at
the derived start with the derived size (with the `start = 0` page dodge
and the one-page skip), so the resulting chain is the reverse insertion
order of qualifying descriptors followed by the previous chain. -/
theorem c7_init_with_mmap_spec (chain : List Header)
    (mmap : List EfiMemoryDescriptor) :
    init_with_mmap chain mmap = (qualifying_headers mmap).reverse ++ chain := by
  induction mmap generalizing chain with
  | nil => simp [init_with_mmap, qualifying_headers]
  | cons d rest ih =>
    have hstep : init_with_mmap chain (d :: rest) =
        init_with_mmap
          (if d.memory_type ≠ EfiMemoryType.CONVENTIONAL_MEMORY then chain
           else add_free_from_descriptor chain d) rest := by
      simp [init_with_mmap]
    rw [hstep, step_eq_qualifying]
    rw [qualifying_headers, List.filterMap_cons]
    cases hq : qualifying_header d with
    | none => exact ih chain
    | some hnew =>
      rw [ih, List.reverse_cons, List.append_assoc]
      rfl

/-- C2: for every layout with power-of-two alignment, a successful walk
returns a payload address that is a nonzero multiple of
`max(L.align, HEADER_SIZE)`; consequently every non-null pointer returned
by `alloc_with_options` is so aligned and address `0` occurs only as the
failure signal. -/
theorem c2_alignment_nonnull (c : List Header) (L : Layout)
    (hWF : chainWF c) (hpow : ∃ k, k ≤ 63 ∧ L.align = 2 ^ k) :
    (∀ c' p, allocChain c L.size L.align = some (c', p) →
      p % max L.align HEADER_SIZE = 0 ∧ p ≠ 0) ∧
    ∀ c' p, alloc_with_options c L = (c', p) → p ≠ 0 →
      p % max L.align HEADER_SIZE = 0 := by
  have hmain : ∀ c' p, allocChain c L.size L.align = some (c', p) →
      p % max L.align HEADER_SIZE = 0 ∧ p ≠ 0 := by
    intro c' p hac
    obtain ⟨pre, hd, seg, post, hceq, hpre, hprov, hc'⟩ :=
      allocChain_some_elim _ _ _ _ _ hac
    have hWFhd : hdrWF hd := hWF.1 hd (by rw [hceq]; simp)
    obtain ⟨s0, size', hrup, hsize', hfree, hcan, hp, hseg⟩ :=
      provide_some_elim hd L.size L.align seg p hpow hWFhd.2.2.2 hprov
    obtain ⟨k, hk63, hka⟩ := hpow
    obtain ⟨hmax, hmax63, h32a⟩ := norm_align_pow2 hk63 hka
    obtain ⟨hgt, hple, hdvd, h32dvd, hsle⟩ :=
      payload_bounds hd size' (max L.align HEADER_SIZE) (max k 5) p hmax hmax63
        h32a (hsize' ▸ le_max_right _ _) hWFhd.2.2.2 hcan hp
    obtain ⟨t, rfl⟩ := hdvd
    refine ⟨Nat.mul_mod_right _ _, ?_⟩
    simp only [HEADER_SIZE] at hgt ⊢
    omega
  refine ⟨hmain, ?_⟩
  intro c' p hres hnn
  rw [alloc_with_options] at hres
  cases hac : allocChain c L.size L.align with
  | none =>
    rw [hac] at hres
    simp only [resultOrNull, Prod.mk.injEq] at hres
    exact absurd hres.2.symm hnn
  | some cp =>
    rw [hac] at hres
    obtain ⟨c0, p0⟩ := cp
    simp only [resultOrNull, Prod.mk.injEq] at hres
    exact (hres.2 ▸ hmain c0 p0 hac).1

theorem c2_alignment_nonnull_witness :
    chainWF [Header.mk 4096 16384 false] ∧
    (∃ k, k ≤ 63 ∧ (16 : Nat) = 2 ^ k) ∧
    ((∀ c' p, allocChain [Header.mk 4096 16384 false] (16 : Nat) (16 : Nat) =
        some (c', p) → p % max 16 HEADER_SIZE = 0 ∧ p ≠ 0) ∧
      ∀ c' p, alloc_with_options [Header.mk 4096 16384 false] ⟨16, 16⟩ = (c', p) →
        p ≠ 0 → p % max 16 HEADER_SIZE = 0) :=
  ⟨by decide, by decide,
    c2_alignment_nonnull [Header.mk 4096 16384 false] ⟨16, 16⟩ (by decide) (by decide)⟩

/-- The impossible request: `round_up_to_nearest_pow2 (usize::MAX)`
overflows, so no chunk ever provides for it. -/
theorem provide_overflow_none (g : Header) (align : Nat) :
    g.provide (2 ^ 64 - 1) align = none := by
  rw [Header.provide]
  have h0 : round_up_to_nearest_pow2 (2 ^ 64 - 1) = none := by decide
  rw [h0]
  rfl

/-- C4: `alloc_with_options` walks the chain in order calling `provide` on
each chunk and returns the first non-empty result; when no chunk succeeds
(empty chain, OOM, or size-rounding overflow) it returns the null pointer
and leaves every chunk unchanged; in particular `allocate((usize::MAX, 8))`
returns null, does not corrupt the chain, and a subsequent allocation
behaves exactly as if it had never happened. -/
theorem c4_first_fit_oom (c : List Header) (L : Layout) :
    (allocChain c L.size L.align = none →
      alloc_with_options c L = (c, 0) ∧ ∀ g ∈ c, g.provide L.size L.align = none) ∧
    (∀ c' p, allocChain c L.size L.align = some (c', p) →
      alloc_with_options c L = (c', p) ∧
      ∃ pre hd seg post, c = pre ++ hd :: post ∧
        (∀ g ∈ pre, g.provide L.size L.align = none) ∧
        hd.provide L.size L.align = some (seg, p) ∧
        c' = pre ++ (seg ++ post)) ∧
    alloc_with_options c ⟨2 ^ 64 - 1, 8⟩ = (c, 0) ∧
    ∀ L', alloc_with_options ((alloc_with_options c ⟨2 ^ 64 - 1, 8⟩).1) L' =
      alloc_with_options c L' := by
  have hmaxnone : allocChain c (2 ^ 64 - 1) 8 = none :=
    (allocChain_none_iff c _ _).mpr fun g _ => provide_overflow_none g 8
  have hmaxres : alloc_with_options c ⟨2 ^ 64 - 1, 8⟩ = (c, 0) := by
    rw [alloc_with_options]
    rw [show (Layout.mk (2 ^ 64 - 1) 8).size = 2 ^ 64 - 1 from rfl,
      show (Layout.mk (2 ^ 64 - 1) 8).align = 8 from rfl, hmaxnone]
    rfl
  refine ⟨?_, ?_, hmaxres, ?_⟩
  · intro h
    refine ⟨?_, (allocChain_none_iff c _ _).mp h⟩
    rw [alloc_with_options, h]
    rfl
  · intro c' p h
    refine ⟨?_, allocChain_some_elim _ _ _ _ _ h⟩
    rw [alloc_with_options, h]
    rfl
  · intro L'
    rw [hmaxres]

theorem c4_first_fit_oom_witness :
    alloc_with_options [Header.mk 4096 16384 false] ⟨2 ^ 64 - 1, 8⟩ =
      ([Header.mk 4096 16384 false], 0) :=
  (c4_first_fit_oom [Header.mk 4096 16384 false] ⟨1, 1⟩).2.2.1

/-- C5: under the preconditions that the chunk is free, `can_provide`
accepts the normalized request, the normalized alignment is a power of two
at least `H`, the normalized size is at least `H`, the chunk is at least a
header long, and the chunk lies within the 64-bit address space, the carve
arithmetic of `provide` is safe: `end_addr() - size'` does not underflow,
the payload is at least `address_of(self) + H` (so the allocated header
never aliases `self`'s header), and the shrink assertion
`self.size >= size_used + HEADER_SIZE` holds even when a padding header is
carved. -/
theorem c5_carve_safety (h : Header) (size' align' k : Nat)
    (hfree : h.is_allocated = false)
    (hcan : h.can_provide size' align' = true)
    (hpow : align' = 2 ^ k) (hk5 : 5 ≤ k) (hk63 : k ≤ 63)
    (hs32 : HEADER_SIZE ≤ size') (hszH : HEADER_SIZE ≤ h.size)
    (hend : h.addr + h.size ≤ 2 ^ 64) :
    size' ≤ h.end_addr ∧
    h.addr + HEADER_SIZE ≤ Nat.land (h.end_addr - size') (not64 (align' - 1)) ∧
    (size' + HEADER_SIZE) +
        (h.end_addr - (Nat.land (h.end_addr - size') (not64 (align' - 1)) + size')) +
        HEADER_SIZE ≤ h.size := by
  have hcan' : size' + HEADER_SIZE * 2 + align' ≤ h.size := by
    simpa [Header.can_provide] using hcan
  have h32a : HEADER_SIZE ≤ align' := by
    rw [hpow]
    calc HEADER_SIZE = 2 ^ 5 := by norm_num [HEADER_SIZE]
      _ ≤ 2 ^ k := Nat.pow_le_pow_right (by norm_num) hk5
  have hxlt : h.end_addr - size' < 2 ^ 64 := by
    simp only [HEADER_SIZE] at hs32
    simp only [Header.end_addr]
    omega
  have hland : Nat.land (h.end_addr - size') (not64 (align' - 1)) =
      alignDown (h.end_addr - size') align' := by
    rw [hpow]
    exact land_not64_pow2 _ k (by omega) hxlt
  obtain ⟨hgt, hple, hdvd, h32dvd, hsle⟩ :=
    payload_bounds h size' align' k (alignDown (h.end_addr - size') align')
      hpow hk63 h32a hs32 hend hcan' rfl
  rw [hland]
  simp only [HEADER_SIZE, Header.end_addr] at *
  omega

theorem c5_carve_safety_witness :
    (Header.mk 4096 16384 false).is_allocated = false ∧
    (Header.mk 4096 16384 false).can_provide 32 32 = true ∧
    (32 : Nat) = 2 ^ 5 ∧ 5 ≤ 5 ∧ 5 ≤ 63 ∧
    HEADER_SIZE ≤ 32 ∧ HEADER_SIZE ≤ (Header.mk 4096 16384 false).size ∧
    (Header.mk 4096 16384 false).addr + (Header.mk 4096 16384 false).size ≤ 2 ^ 64 ∧
    (32 ≤ (Header.mk 4096 16384 false).end_addr ∧
      (Header.mk 4096 16384 false).addr + HEADER_SIZE ≤
        Nat.land ((Header.mk 4096 16384 false).end_addr - 32) (not64 (32 - 1)) ∧
      (32 + HEADER_SIZE) +
          ((Header.mk 4096 16384 false).end_addr -
            (Nat.land ((Header.mk 4096 16384 false).end_addr - 32) (not64 (32 - 1)) + 32)) +
          HEADER_SIZE ≤ (Header.mk 4096 16384 false).size) :=
  ⟨by decide, by decide, by decide, by decide, by decide, by decide, by decide, by decide,
    c5_carve_safety (Header.mk 4096 16384 false) 32 32 5 (by decide) (by decide)
      (by decide) (by decide) (by decide) (by decide) (by decide) (by decide)⟩

/-- C3: when `provide(size, align)` succeeds on a free chunk (with
normalized `size' = max(round_up_pow2 size, H)` and `align' = max(align,
H)`): the payload is `(end_addr - size') & ~(align' - 1)` (written
arithmetically as rounding down to a multiple of `align'`); an allocated
header is placed at `payload - H` with `size = size' + H`,
`is_allocated = true` and the old `next` of `self`; a padding header of
size `end_addr - allocated.end_addr`, free, is created iff
`allocated.end_addr ≠ end_addr` and is spliced between the allocated header
and the old next; `self.size` shrinks by exactly `allocated.size` plus the
padding size, and `self.next` becomes the allocated header (the segment
order below). -/
theorem c3_provide_carve (h : Header) (size align s0 k size' align' p : Nat)
    (hs0 : round_up_to_nearest_pow2 size = some s0)
    (hsize' : size' = max s0 HEADER_SIZE)
    (halign' : align' = max align HEADER_SIZE)
    (hp : p = (h.end_addr - size') - (h.end_addr - size') % align')
    (hfree : h.is_allocated = false)
    (hk : k ≤ 63) (hka : align = 2 ^ k)
    (hend : h.addr + h.size ≤ 2 ^ 64)
    (hcan : h.can_provide size' align' = true) :
    h.provide size align =
      some
        (if p + size' ≠ h.end_addr then
           [⟨h.addr, h.size - ((size' + HEADER_SIZE) + (h.end_addr - (p + size'))), false⟩,
            ⟨p - HEADER_SIZE, size' + HEADER_SIZE, true⟩,
            ⟨p + size', h.end_addr - (p + size'), false⟩]
         else
           [⟨h.addr, h.size - (size' + HEADER_SIZE), false⟩,
            ⟨p - HEADER_SIZE, size' + HEADER_SIZE, true⟩],
         p) := by
  obtain ⟨hmax, hmax63, -⟩ := norm_align_pow2 hk hka
  have hcan' : size' + HEADER_SIZE * 2 + align' ≤ h.size := by
    simpa [Header.can_provide] using hcan
  exact provide_some h size align s0 (max k 5) size' align' p hs0 hsize' halign'
    (by rw [hp]; rfl) hfree (halign'.trans hmax) hmax63 hend hcan'

theorem c3_provide_carve_witness :
    round_up_to_nearest_pow2 16 = some 16 ∧
    (32 : Nat) = max 16 HEADER_SIZE ∧
    (32 : Nat) = max 16 HEADER_SIZE ∧
    (20448 : Nat) =
      ((Header.mk 4096 16384 false).end_addr - 32) -
        ((Header.mk 4096 16384 false).end_addr - 32) % 32 ∧
    (Header.mk 4096 16384 false).is_allocated = false ∧
    4 ≤ 63 ∧ (16 : Nat) = 2 ^ 4 ∧
    (Header.mk 4096 16384 false).addr + (Header.mk 4096 16384 false).size ≤ 2 ^ 64 ∧
    (Header.mk 4096 16384 false).can_provide 32 32 = true ∧
    (Header.mk 4096 16384 false).provide 16 16 =
      some
        (if 20448 + 32 ≠ (Header.mk 4096 16384 false).end_addr then
           [⟨(Header.mk 4096 16384 false).addr,
             (Header.mk 4096 16384 false).size -
               ((32 + HEADER_SIZE) +
                 ((Header.mk 4096 16384 false).end_addr - (20448 + 32))), false⟩,
            ⟨20448 - HEADER_SIZE, 32 + HEADER_SIZE, true⟩,
            ⟨20448 + 32, (Header.mk 4096 16384 false).end_addr - (20448 + 32), false⟩]
         else
           [⟨(Header.mk 4096 16384 false).addr,
             (Header.mk 4096 16384 false).size - (32 + HEADER_SIZE), false⟩,
            ⟨20448 - HEADER_SIZE, 32 + HEADER_SIZE, true⟩],
         20448) :=
  ⟨by decide, by decide, by decide, by decide, by decide, by decide, by decide,
    by decide, by decide,
    c3_provide_carve (Header.mk 4096 16384 false) 16 16 16 4 32 32 20448
      (by decide) (by decide) (by decide) (by decide) (by decide) (by decide)
      (by decide) (by decide) (by decide)⟩

/-- C8: round-trip and frame of `dealloc`: for any pointer `p` returned by
a successful allocation on a well-formed chain, the header at
`p - HEADER_SIZE` is allocated before `dealloc(p, ·)` and free afterwards,
and `dealloc` changes nothing else — every other header (its flag, size and
position, hence the `next` structure and the head of the chain) is
untouched, and no chunk is unlinked or merged. -/
theorem c8_dealloc_roundtrip_frame (c : List Header) (L : Layout)
    (hWF : chainWF c) (hpow : ∃ k, k ≤ 63 ∧ L.align = 2 ^ k)
    (hsz : L.size < 2 ^ 64) (c' : List Header) (p : Nat)
    (halloc : allocChain c L.size L.align = some (c', p)) (L2 : Layout) :
    ∃ hA ∈ c', hA.addr = p - HEADER_SIZE ∧ hA.is_allocated = true ∧
      { hA with is_allocated := false } ∈ dealloc c' p L2 ∧
      dealloc c' p L2 =
        c'.map fun g => if g = hA then { g with is_allocated := false } else g := by
  have hInv0 : Inv ⟨c, []⟩ :=
    ⟨hWF, fun e he => absurd he (List.not_mem_nil e), List.Pairwise.nil⟩
  have h2 := Inv_alloc ⟨c, []⟩ L hInv0 ⟨hpow, hsz⟩
  have happ : applyOp ⟨c, []⟩ (.alloc L) = ⟨c', [(p, L)]⟩ := by
    simp only [applyOp]
    rw [halloc]
  rw [happ] at h2
  obtain ⟨hWF', hliveH, -⟩ := h2
  obtain ⟨g, hg, hga, hgp, hgs⟩ := hliveH (p, L) (by simp)
  have hgaddr : g.addr = p - HEADER_SIZE := by omega
  have hmap : dealloc c' p L2 =
      c'.map fun g' => if g' = g then { g' with is_allocated := false } else g' := by
    rw [dealloc]
    refine List.map_congr_left ?_
    intro a ha
    by_cases haddr : a.addr = p - HEADER_SIZE
    · have hae : a = g :=
        chainWF_mem_addr_inj hWF' ha hg (by rw [haddr, hgaddr])
      rw [if_pos haddr, if_pos hae, hae]
    · have hane : a ≠ g := fun he => haddr (he ▸ hgaddr ▸ rfl)
      rw [if_neg haddr, if_neg hane]
  refine ⟨g, hg, hgaddr, hga, ?_, hmap⟩
  rw [hmap]
  exact List.mem_map.mpr ⟨g, hg, by rw [if_pos rfl]⟩

theorem c8_dealloc_roundtrip_frame_witness :
    chainWF [Header.mk 4096 16384 false] ∧
    (∃ k, k ≤ 63 ∧ (16 : Nat) = 2 ^ k) ∧
    (16 : Nat) < 2 ^ 64 ∧
    allocChain [Header.mk 4096 16384 false] 16 16 =
      some ([Header.mk 4096 16320 false, Header.mk 20416 64 true], 20448) ∧
    ∃ hA ∈ [Header.mk 4096 16320 false, Header.mk 20416 64 true],
      hA.addr = 20448 - HEADER_SIZE ∧ hA.is_allocated = true ∧
      { hA with is_allocated := false } ∈
        dealloc [Header.mk 4096 16320 false, Header.mk 20416 64 true] 20448 ⟨1, 1⟩ ∧
      dealloc [Header.mk 4096 16320 false, Header.mk 20416 64 true] 20448 ⟨1, 1⟩ =
        [Header.mk 4096 16320 false, Header.mk 20416 64 true].map
          fun g => if g = hA then { g with is_allocated := false } else g :=
  ⟨by decide, by decide, by decide, by decide,
    c8_dealloc_roundtrip_frame [Header.mk 4096 16384 false] ⟨16, 16⟩ (by decide)
      (by decide) (by decide) [Header.mk 4096 16320 false, Header.mk 20416 64 true]
      20448 (by decide) ⟨1, 1⟩⟩

/-- C1: non-overlap invariant.  For every permitted sequence of
`init_with_mmap` / `allocate` / `deallocate` operations, any two
simultaneously-live allocations `(p₁, L₁)` and `(p₂, L₂)` have disjoint
byte ranges `[p₁, p₁ + L₁.size)` and `[p₂, p₂ + L₂.size)`, and no live
allocation's byte range overlaps the byte range
`[g.addr, g.addr + HEADER_SIZE)` of any header in the chain. -/
theorem c1_nonoverlap (ops : List Op) (hops : opsOK initialState ops) :
    ((execOps initialState ops).live.Pairwise fun a b =>
      a.1 + a.2.size ≤ b.1 ∨ b.1 + b.2.size ≤ a.1) ∧
    ∀ e ∈ (execOps initialState ops).live,
      ∀ g ∈ (execOps initialState ops).chain,
        e.1 + e.2.size ≤ g.addr ∨ g.addr + HEADER_SIZE ≤ e.1 := by
  obtain ⟨hWF, hliveH, hlivePW⟩ := Inv_execOps ops initialState Inv_initialState hops
  constructor
  · refine hlivePW.imp_of_mem ?_
    intro a b ha hb hne
    obtain ⟨ga, hga, hgaA, hgaP, hgaS⟩ := hliveH a ha
    obtain ⟨gb, hgb, hgbA, hgbP, hgbS⟩ := hliveH b hb
    have hgne : ga.addr ≠ gb.addr := by
      simp only [HEADER_SIZE] at hgaP hgbP
      omega
    have hdis := chainWF_mem_disjoint hWF hga hgb hgne
    unfold Header.disjointRange at hdis
    simp only [HEADER_SIZE] at hgaP hgbP
    omega
  · intro e he g hg
    obtain ⟨ge, hge, hA, hP, hS⟩ := hliveH e he
    by_cases hsame : g.addr = ge.addr
    · have hgg : g = ge := chainWF_mem_addr_inj hWF hg hge hsame
      right
      rw [hgg, hP]
    · have hdis := chainWF_mem_disjoint hWF hg hge hsame
      have hWFg := hWF.1 g hg
      unfold Header.disjointRange at hdis
      unfold hdrWF at hWFg
      simp only [HEADER_SIZE] at hWFg hP ⊢
      omega

theorem c1_nonoverlap_witness :
    opsOK initialState
      [Op.init [EfiMemoryDescriptor.mk EfiMemoryType.CONVENTIONAL_MEMORY 4096 16],
       Op.alloc ⟨16, 16⟩, Op.dealloc 69600 ⟨16, 16⟩, Op.alloc ⟨40, 8⟩] ∧
    (((execOps initialState
        [Op.init [EfiMemoryDescriptor.mk EfiMemoryType.CONVENTIONAL_MEMORY 4096 16],
         Op.alloc ⟨16, 16⟩, Op.dealloc 69600 ⟨16, 16⟩, Op.alloc ⟨40, 8⟩]).live.Pairwise
        fun a b => a.1 + a.2.size ≤ b.1 ∨ b.1 + b.2.size ≤ a.1) ∧
      ∀ e ∈ (execOps initialState
          [Op.init [EfiMemoryDescriptor.mk EfiMemoryType.CONVENTIONAL_MEMORY 4096 16],
           Op.alloc ⟨16, 16⟩, Op.dealloc 69600 ⟨16, 16⟩, Op.alloc ⟨40, 8⟩]).live,
        ∀ g ∈ (execOps initialState
            [Op.init [EfiMemoryDescriptor.mk EfiMemoryType.CONVENTIONAL_MEMORY 4096 16],
             Op.alloc ⟨16, 16⟩, Op.dealloc 69600 ⟨16, 16⟩, Op.alloc ⟨40, 8⟩]).chain,
          e.1 + e.2.size ≤ g.addr ∨ g.addr + HEADER_SIZE ≤ e.1) :=
  ⟨by decide,
    c1_nonoverlap
      [Op.init [EfiMemoryDescriptor.mk EfiMemoryType.CONVENTIONAL_MEMORY 4096 16],
       Op.alloc ⟨16, 16⟩, Op.dealloc 69600 ⟨16, 16⟩, Op.alloc ⟨40, 8⟩]
      (by decide)⟩

end WasabiAlloc
